import Mathlib

set_option maxHeartbeats 1000000

/-
Verification of the Trace/Trigger algebra of myhdlpeek.

The repository ships only a notebook exercising the Trace API, so the Trace
data structure and its operations are reconstructed here from the design
specification (spec.md): a run-length-encoded, piecewise-constant signal
over integer ticks, an operator algebra producing derived Traces, a delay
operation, and trigger-time extraction.
-/

/-- Modelled from the spec: a Sample is a pair (time : integer tick,
value : integer); spec section 3. The Trace implementation itself is missing
from the repository source, which only contains a notebook calling it. -/
structure Sample where
  time : Nat
  value : Int
deriving DecidableEq, Repr

/-- Modelled from the spec: the error taxonomy of the Trace component
(spec section 4.1); only the errors reachable in this model are included. -/
inductive TraceError where
  | invalidOrder
  | divisionByZero
deriving DecidableEq, Repr

/-- Modelled from the spec: a Trace holds an ordered sequence of Samples with
strictly increasing times, storing only the samples at which the value
changes (spec section 3). -/
structure Trace where
  samples : List Sample
deriving DecidableEq, Repr

/-- The list of sample times of a trace. -/
def Trace.times (tr : Trace) : List Nat :=
  tr.samples.map Sample.time

/-- Strictly increasing sample times: the structural invariant of a Trace. -/
def Trace.Sorted (tr : Trace) : Prop :=
  tr.samples.Pairwise (fun a b => a.time < b.time)

/-- Run-length-encoding invariant: consecutive stored values differ. -/
def Trace.RLE (tr : Trace) : Prop :=
  tr.samples.Chain' (fun a b => a.value ≠ b.value)

instance (tr : Trace) : Decidable tr.Sorted := by
  unfold Trace.Sorted; infer_instance

instance (tr : Trace) : Decidable tr.RLE := by
  unfold Trace.RLE; infer_instance

/-- Helper for value lookup: walk the ordered sample list carrying the value
held so far, stopping at the first sample lying beyond the query time. -/
def valueAtAux : List Sample → Nat → Int → Int
  | [], _, acc => acc
  | s :: rest, t, acc => if s.time ≤ t then valueAtAux rest t s.value else acc

/-- Modelled from the spec: value_at(t) returns the value held at time t,
returning 0 if t precedes the first sample (spec section 4.1, value lookup);
the lookup walks the time-ordered sample list. -/
def Trace.value_at (tr : Trace) (t : Nat) : Int :=
  valueAtAux tr.samples t 0

/-- Modelled from the spec: append(sample) requires sample.time strictly
greater than the current last sample time (else InvalidOrder) and is a no-op
when the new value equals the last stored value (spec section 4.1). -/
def Trace.append (tr : Trace) (s : Sample) : Except TraceError Trace :=
  match tr.samples.getLast? with
  | none => .ok ⟨[s]⟩
  | some last =>
    if s.time ≤ last.time then .error .invalidOrder
    else if s.value = last.value then .ok tr
    else .ok ⟨tr.samples ++ [s]⟩

/-- Appending a whole list of samples in order, propagating the first error. -/
def Trace.appendAll : Trace → List Sample → Except TraceError Trace
  | tr, [] => .ok tr
  | tr, s :: rest =>
    match tr.append s with
    | .error e => .error e
    | .ok tr2 => tr2.appendAll rest

/-- Helper for trigger extraction: expand every stored sample with non-zero
value into the ticks of its run; the run ends at the next sample time, or at
the caller-supplied horizon for the final open-ended run. -/
def trigAux : List Sample → Nat → List Nat
  | [], _ => []
  | [s], horizon =>
    if s.value ≠ 0 then List.range' s.time (horizon - s.time) else []
  | s :: s2 :: rest, horizon =>
    (if s.value ≠ 0 then List.range' s.time (s2.time - s.time) else []) ++
      trigAux (s2 :: rest) horizon

/-- Modelled from the spec: trig_times() walks the RLE sample list and, for
every run with non-zero held value, emits every integer tick of the run
(spec section 4.1, trigger extraction); the horizon bounds the final run. -/
def Trace.trig_times (tr : Trace) (horizon : Nat) : List Nat :=
  trigAux tr.samples horizon

/-- Modelled from the spec: delay(n) shifts every sample time up by n and,
when the shifted first sample starts after time 0, backfills with the
pre-shift value at time 0 (spec section 4.1, delay). -/
def Trace.delay (tr : Trace) (n : Nat) : Trace :=
  match tr.samples with
  | [] => ⟨[]⟩
  | s :: _ =>
    let shifted := tr.samples.map (fun x => ⟨x.time + n, x.value⟩)
    if 0 < s.time + n then ⟨⟨0, tr.value_at 0⟩ :: shifted⟩ else ⟨shifted⟩

/-- The claim-side description of value lookup: the value of the last stored
sample whose time is at most t, or 0 when no such sample exists. -/
def lastValueLE (tr : Trace) (t : Nat) : Int :=
  ((tr.samples.filter (fun s => decide (s.time ≤ t))).getLast?.map
    Sample.value).getD 0

/-- The claim-side description of RLE compaction: keep exactly the appended
pairs whose value differs from the immediately preceding appended value. -/
def rleAux (prev : Int) : List Sample → List Sample
  | [] => []
  | s :: rest =>
    if s.value = prev then rleAux prev rest else s :: rleAux s.value rest

/-- RLE compaction of a raw append sequence: the first pair is always kept. -/
def rleCompact : List Sample → List Sample
  | [] => []
  | s :: rest => s :: rleAux s.value rest

lemma valueAtAux_acc_indep (s : Sample) (l : List Sample) (t : Nat) (a b : Int)
    (h : s.time ≤ t) : valueAtAux (s :: l) t a = valueAtAux (s :: l) t b := by
  simp [valueAtAux, h]

lemma valueAtAux_all_le (l : List Sample) (x : Sample) (t : Nat)
    (hle : ∀ y ∈ l, y.time ≤ t) (hlast : l.getLast? = some x) :
    ∀ acc, valueAtAux l t acc = x.value := by
  induction l with
  | nil => simp at hlast
  | cons s rest ih =>
    intro acc
    have hs : s.time ≤ t := hle s (by simp)
    rw [valueAtAux, if_pos hs]
    cases rest with
    | nil =>
      simp [List.getLast?] at hlast
      simp [valueAtAux, hlast]
    | cons r rs =>
      rw [List.getLast?_cons_cons] at hlast
      exact ih (fun y hy => hle y (List.mem_cons_of_mem s hy)) hlast _

lemma valueAtAux_append_gt (l : List Sample) (x : Sample) (t : Nat)
    (h : t < x.time) : ∀ acc, valueAtAux (l ++ [x]) t acc = valueAtAux l t acc := by
  induction l with
  | nil => intro acc; simp [valueAtAux, Nat.not_le.mpr h]
  | cons s rest ih =>
    intro acc
    by_cases hs : s.time ≤ t
    · rw [List.cons_append, valueAtAux, if_pos hs, valueAtAux, if_pos hs, ih]
    · rw [List.cons_append, valueAtAux, if_neg hs, valueAtAux, if_neg hs]

lemma valueAtAux_no_change (l : List Sample) (t1 t2 : Nat) (h12 : t1 ≤ t2)
    (h : ∀ s ∈ l, ¬(t1 < s.time ∧ s.time ≤ t2)) :
    ∀ acc, valueAtAux l t2 acc = valueAtAux l t1 acc := by
  induction l with
  | nil => intro acc; rfl
  | cons s rest ih =>
    intro acc
    simp only [valueAtAux]
    by_cases hs : s.time ≤ t1
    · rw [if_pos hs, if_pos (hs.trans h12)]
      exact ih (fun y hy => h y (List.mem_cons_of_mem s hy)) _
    · have hs2 : ¬ s.time ≤ t2 := by
        intro hc
        exact h s (by simp) ⟨Nat.not_le.mp hs, hc⟩
      rw [if_neg hs, if_neg hs2]

lemma valueAtAux_mem (l : List Sample) (t : Nat) :
    ∀ acc, valueAtAux l t acc = acc ∨ ∃ s ∈ l, valueAtAux l t acc = s.value := by
  induction l with
  | nil => intro acc; left; rfl
  | cons s rest ih =>
    intro acc
    by_cases hs : s.time ≤ t
    · rw [valueAtAux, if_pos hs]
      rcases ih s.value with h | ⟨y, hy, hv⟩
      · right; exact ⟨s, by simp, h⟩
      · right; exact ⟨y, List.mem_cons_of_mem s hy, hv⟩
    · rw [valueAtAux, if_neg hs]; left; rfl

lemma valueAtAux_map_shift (l : List Sample) (n t : Nat) :
    ∀ acc, valueAtAux (l.map (fun x => ⟨x.time + n, x.value⟩)) (t + n) acc =
      valueAtAux l t acc := by
  induction l with
  | nil => intro acc; rfl
  | cons s rest ih =>
    intro acc
    by_cases hs : s.time ≤ t
    · rw [List.map_cons, valueAtAux, if_pos (by omega : s.time + n ≤ t + n),
        valueAtAux, if_pos hs]
      exact ih _
    · rw [List.map_cons, valueAtAux, if_neg (by omega : ¬ s.time + n ≤ t + n),
        valueAtAux, if_neg hs]

lemma valueAtAux_eq_lastLE (l : List Sample) (t : Nat)
    (hs : l.Pairwise (fun a b => a.time < b.time)) :
    ∀ acc, valueAtAux l t acc =
      ((l.filter (fun s => decide (s.time ≤ t))).getLast?.map
        Sample.value).getD acc := by
  induction l with
  | nil => intro acc; rfl
  | cons s rest ih =>
    intro acc
    rcases List.pairwise_cons.mp hs with ⟨hhead, htail⟩
    by_cases hst : s.time ≤ t
    · rw [valueAtAux, if_pos hst, ih htail]
      rw [List.filter_cons_of_pos (by simpa using hst)]
      cases hfr : rest.filter (fun s => decide (s.time ≤ t)) with
      | nil => simp
      | cons y ys =>
        rw [List.getLast?_cons_cons]
        cases hz : (y :: ys).getLast? with
        | none => rw [List.getLast?_eq_none_iff] at hz; exact absurd hz (by simp)
        | some z => simp
    · rw [valueAtAux, if_neg hst]
      rw [List.filter_cons_of_neg (by simpa using hst)]
      have : rest.filter (fun s => decide (s.time ≤ t)) = [] := by
        rw [List.filter_eq_nil_iff]
        intro y hy
        have := hhead y hy
        simp only [decide_eq_true_eq]
        omega
      simp [this]

lemma delay_samples_nil (n : Nat) : (Trace.mk []).delay n = ⟨[]⟩ := rfl

lemma map_shift_zero (l : List Sample) :
    l.map (fun x => Sample.mk (x.time + 0) x.value) = l := by
  induction l with
  | nil => rfl
  | cons s rest ih => simp [ih]

lemma delay_value_at_lt (tr : Trace) (n t : Nat) (h : t < n) :
    (tr.delay n).value_at t = tr.value_at 0 := by
  obtain ⟨l⟩ := tr
  cases l with
  | nil => rfl
  | cons s rest =>
    have hn : 0 < s.time + n := by omega
    show (Trace.delay ⟨s :: rest⟩ n).value_at t = _
    rw [Trace.delay]
    simp only [hn, if_pos]
    show valueAtAux (⟨0, (Trace.mk (s :: rest)).value_at 0⟩ ::
      (s :: rest).map (fun x => ⟨x.time + n, x.value⟩)) t 0 = _
    rw [valueAtAux, if_pos (Nat.zero_le t), List.map_cons, valueAtAux,
      if_neg (by omega : ¬ s.time + n ≤ t)]

lemma delay_value_at_shift (tr : Trace) (n t : Nat) :
    (tr.delay n).value_at (t + n) = tr.value_at t := by
  obtain ⟨l⟩ := tr
  cases l with
  | nil => rfl
  | cons s rest =>
    show (Trace.delay ⟨s :: rest⟩ n).value_at (t + n) = _
    rw [Trace.delay]
    by_cases hn : 0 < s.time + n
    · simp only [hn, if_pos]
      show valueAtAux (⟨0, (Trace.mk (s :: rest)).value_at 0⟩ ::
        (s :: rest).map (fun x => ⟨x.time + n, x.value⟩)) (t + n) 0 = _
      rw [valueAtAux, if_pos (Nat.zero_le _), valueAtAux_map_shift]
      show valueAtAux (s :: rest) t ((Trace.mk (s :: rest)).value_at 0) =
        valueAtAux (s :: rest) t 0
      by_cases hst : s.time ≤ t
      · exact valueAtAux_acc_indep s rest t _ _ hst
      · rw [valueAtAux, if_neg hst, valueAtAux, if_neg hst]
        show (Trace.mk (s :: rest)).value_at 0 = 0
        rw [Trace.value_at, valueAtAux, if_neg (by omega : ¬ s.time ≤ 0)]
    · have hs0 : s.time = 0 ∧ n = 0 := by omega
      simp only [hn, if_neg, not_false_iff]
      show (Trace.mk ((s :: rest).map (fun x => ⟨x.time + n, x.value⟩))).value_at
        (t + n) = _
      rw [hs0.2, map_shift_zero]
      rfl

/-- Concrete trace of the trigger-extraction scenario in the spec. -/
def exTrig : Trace := ⟨[⟨0, 0⟩, ⟨5, 1⟩, ⟨8, 0⟩, ⟨12, 1⟩]⟩

/-- Concrete trace of the delay scenario in the spec. -/
def exDelay : Trace := ⟨[⟨0, 3⟩]⟩

lemma appendAll_acc (rest : List Sample) :
    ∀ (acc : List Sample) (lastS : Sample),
      acc.getLast? = some lastS →
      (∀ s ∈ rest, lastS.time < s.time) →
      rest.Pairwise (fun a b => a.time < b.time) →
      Trace.appendAll ⟨acc⟩ rest = .ok ⟨acc ++ rleAux lastS.value rest⟩ := by
  induction rest with
  | nil => intro acc lastS _ _ _; simp [Trace.appendAll, rleAux]
  | cons s rest2 ih =>
    intro acc lastS hlast hlt hpw
    have hne : ¬ s.time ≤ lastS.time := Nat.not_le.mpr (hlt s (by simp))
    rcases List.pairwise_cons.mp hpw with ⟨hhead, htail⟩
    rw [Trace.appendAll]
    by_cases hv : s.value = lastS.value
    · rw [show Trace.append ⟨acc⟩ s = .ok ⟨acc⟩ by
        simp only [Trace.append, hlast]
        rw [if_neg hne, if_pos hv]]
      rw [rleAux, if_pos hv]
      exact ih acc lastS hlast
        (fun y hy => hlt y (List.mem_cons_of_mem s hy)) htail
    · rw [show Trace.append ⟨acc⟩ s = .ok ⟨acc ++ [s]⟩ by
        simp only [Trace.append, hlast]
        rw [if_neg hne, if_neg hv]]
      rw [rleAux, if_neg hv]
      show Trace.appendAll ⟨acc ++ [s]⟩ rest2 =
        Except.ok ⟨acc ++ s :: rleAux s.value rest2⟩
      rw [ih (acc ++ [s]) s (List.getLast?_concat acc) hhead htail]
      simp [List.append_assoc]

/-- C4: for every append sequence with strictly increasing times, the stored
sample list is exactly the subsequence of appended pairs whose value differs
from the immediately preceding appended value (the RLE invariant). -/
theorem append_rle_invariant (l : List Sample)
    (h : l.Pairwise (fun a b => a.time < b.time)) :
    Trace.appendAll ⟨[]⟩ l = .ok ⟨rleCompact l⟩ := by
  cases l with
  | nil => rfl
  | cons s rest =>
    rcases List.pairwise_cons.mp h with ⟨hhead, htail⟩
    rw [Trace.appendAll,
      show Trace.append ⟨[]⟩ s = .ok ⟨[s]⟩ from rfl]
    show Trace.appendAll ⟨[s]⟩ rest = Except.ok ⟨rleCompact (s :: rest)⟩
    rw [appendAll_acc rest [s] s rfl hhead htail]
    rfl

theorem append_rle_invariant_witness :
    Trace.appendAll ⟨[]⟩ [⟨0, 1⟩, ⟨1, 1⟩, ⟨2, 5⟩] =
      .ok ⟨[⟨0, 1⟩, ⟨2, 5⟩]⟩ :=
  (append_rle_invariant [⟨0, 1⟩, ⟨1, 1⟩, ⟨2, 5⟩] (by decide)).trans rfl

/-- C3: for every trace with strictly increasing sample times and every time
t, value_at(t) equals the value of the last stored sample whose time is at
most t, and 0 when no such sample exists. -/
theorem value_at_spec (tr : Trace) (h : tr.Sorted) (t : Nat) :
    tr.value_at t = lastValueLE tr t :=
  valueAtAux_eq_lastLE tr.samples t h 0

theorem value_at_spec_witness :
    exTrig.value_at 6 = lastValueLE exTrig 6 ∧ exTrig.value_at 6 = 1 :=
  ⟨value_at_spec exTrig (by decide) 6, by decide⟩

/-- C8: trigger extraction and value lookup are total on the empty trace:
trig_times returns the empty sequence and value_at returns 0, for every
horizon and every query time. -/
theorem empty_trace_total (horizon t : Nat) :
    (Trace.mk []).trig_times horizon = [] ∧ (Trace.mk []).value_at t = 0 :=
  ⟨rfl, rfl⟩

/-- C5: delay(n) shifts the signal by n ticks: for times before n the delayed
trace resolves to the source value at time 0 (the backfilled pre-shift
value), and for every time t the delayed trace at t + n equals the source at
t. -/
theorem delay_spec (tr : Trace) (n t : Nat) :
    (t < n → (tr.delay n).value_at t = tr.value_at 0) ∧
    (tr.delay n).value_at (t + n) = tr.value_at t :=
  ⟨fun h => delay_value_at_lt tr n t h, delay_value_at_shift tr n t⟩

theorem delay_spec_witness :
    (exDelay.delay 2).value_at 1 = 3 ∧ (exDelay.delay 2).value_at 2 = 3 :=
  ⟨((delay_spec exDelay 2 1).1 (by decide)).trans (by decide),
   ((delay_spec exDelay 2 0).2).trans (by decide)⟩

/-- C6 (amended): append fails with InvalidOrder whenever the new sample's
time is not strictly greater than the last stored time, and succeeds as a
no-op exactly when the time is strictly greater and the new value equals the
last stored value; the order check takes precedence over RLE compaction. -/
theorem append_order_spec (tr : Trace) (s lastS : Sample)
    (h : tr.samples.getLast? = some lastS) :
    (s.time ≤ lastS.time → tr.append s = .error .invalidOrder) ∧
    (lastS.time < s.time → s.value = lastS.value → tr.append s = .ok tr) := by
  constructor
  · intro hle
    simp only [Trace.append, h]
    rw [if_pos hle]
  · intro hgt heq
    simp only [Trace.append, h]
    rw [if_neg (Nat.not_le.mpr hgt), if_pos heq]

theorem append_order_spec_witness :
    Trace.append ⟨[⟨0, 1⟩]⟩ ⟨3, 1⟩ = .ok ⟨[⟨0, 1⟩]⟩ ∧
    Trace.append ⟨[⟨0, 1⟩]⟩ ⟨0, 5⟩ = .error .invalidOrder :=
  ⟨(append_order_spec ⟨[⟨0, 1⟩]⟩ ⟨3, 1⟩ ⟨0, 1⟩ rfl).2 (by decide) rfl,
   (append_order_spec ⟨[⟨0, 1⟩]⟩ ⟨0, 5⟩ ⟨0, 1⟩ rfl).1 (by decide)⟩

/-- C6 counterexample: when the new sample repeats the last stored value but
does not advance time, append raises InvalidOrder instead of succeeding as a
no-op, so the unconditional no-op reading of the claim is false. -/
theorem append_noop_counterexample :
    Trace.append ⟨[⟨0, 1⟩]⟩ ⟨0, 1⟩ = .error .invalidOrder ∧
    ¬ Trace.append ⟨[⟨0, 1⟩]⟩ ⟨0, 1⟩ = .ok ⟨[⟨0, 1⟩]⟩ := by
  refine ⟨rfl, fun hc => ?_⟩
  rw [show Trace.append ⟨[⟨0, 1⟩]⟩ ⟨0, 1⟩ =
    Except.error TraceError.invalidOrder from rfl] at hc
  exact Except.noConfusion hc

lemma range'_split (lo mid hi : Nat) (h1 : lo ≤ mid) (h2 : mid ≤ hi) :
    List.range' lo (hi - lo) =
      List.range' lo (mid - lo) ++ List.range' mid (hi - mid) := by
  have h := List.range'_append lo (mid - lo) (hi - mid) 1
  rw [show lo + 1 * (mid - lo) = mid by omega] at h
  rw [show (hi - mid) + (mid - lo) = hi - lo by omega] at h
  exact h.symm

lemma filter_range'_false {p : Nat → Bool} (a n : Nat)
    (h : ∀ t, a ≤ t → t < a + n → p t = false) :
    (List.range' a n).filter p = [] := by
  rw [List.filter_eq_nil_iff]
  intro t ht
  rcases List.mem_range'_1.mp ht with ⟨h1, h2⟩
  simp [h t h1 h2]

lemma filter_range'_true {p : Nat → Bool} (a n : Nat)
    (h : ∀ t, a ≤ t → t < a + n → p t = true) :
    (List.range' a n).filter p = List.range' a n := by
  rw [List.filter_eq_self]
  intro t ht
  rcases List.mem_range'_1.mp ht with ⟨h1, h2⟩
  exact h t h1 h2

lemma trigAux_eq_filter (l : List Sample) :
    ∀ (lo horizon : Nat),
      l.Pairwise (fun a b => a.time < b.time) →
      (∀ s ∈ l, s.time ≤ horizon) →
      (∀ s ∈ l, lo ≤ s.time) →
      lo ≤ horizon →
      trigAux l horizon =
        (List.range' lo (horizon - lo)).filter
          (fun t => decide (valueAtAux l t 0 ≠ 0)) := by
  induction l with
  | nil =>
    intro lo horizon _ _ _ _
    simp [trigAux, valueAtAux]
  | cons s rest ih =>
    intro lo horizon hpw hhor hlo hlh
    rcases List.pairwise_cons.mp hpw with ⟨hhead, htail⟩
    have hsh : s.time ≤ horizon := hhor s (by simp)
    have hsl : lo ≤ s.time := hlo s (by simp)
    cases rest with
    | nil =>
      simp only [trigAux]
      rw [range'_split lo s.time horizon hsl hsh, List.filter_append]
      have hA : (List.range' lo (s.time - lo)).filter
          (fun t => decide (valueAtAux [s] t 0 ≠ 0)) = [] := by
        apply filter_range'_false
        intro t h1t h2t
        have hns : ¬ s.time ≤ t := by omega
        simp [valueAtAux, hns]
      rw [hA]
      by_cases hv : s.value = 0
      · rw [if_neg (by simpa using hv)]
        rw [filter_range'_false _ _ (fun t h1t h2t => by
          simp [valueAtAux, h1t, hv])]
        rfl
      · rw [if_pos (by simpa using hv)]
        rw [filter_range'_true _ _ (fun t h1t h2t => by
          simp [valueAtAux, h1t, hv])]
        rfl
    | cons s2 rest2 =>
      have hs2 : s.time < s2.time := hhead s2 (by simp)
      have hs2h : s2.time ≤ horizon := hhor s2 (by simp)
      have hs2l : lo ≤ s2.time := hsl.trans hs2.le
      simp only [trigAux]
      rw [range'_split lo s2.time horizon hs2l hs2h, List.filter_append]
      have hC : (List.range' s2.time (horizon - s2.time)).filter
          (fun t => decide (valueAtAux (s :: s2 :: rest2) t 0 ≠ 0)) =
          trigAux (s2 :: rest2) horizon := by
        rw [List.filter_congr (fun t ht => ?_)]
        · exact (ih s2.time horizon htail
            (fun y hy => hhor y (List.mem_cons_of_mem s hy))
            (fun y hy => by
              rcases List.mem_cons.mp hy with h | h
              · simp [h]
              · exact ((List.pairwise_cons.mp htail).1 y h).le)
            hs2h).symm
        · rcases List.mem_range'_1.mp ht with ⟨h1t, h2t⟩
          have hst : s.time ≤ t := by omega
          rw [show valueAtAux (s :: s2 :: rest2) t 0 =
              valueAtAux (s2 :: rest2) t s.value by
            rw [valueAtAux, if_pos hst]]
          rw [valueAtAux_acc_indep s2 rest2 t s.value 0 h1t]
      rw [hC, range'_split lo s.time s2.time hsl hs2.le, List.filter_append]
      have hA : (List.range' lo (s.time - lo)).filter
          (fun t => decide (valueAtAux (s :: s2 :: rest2) t 0 ≠ 0)) = [] := by
        apply filter_range'_false
        intro t h1t h2t
        have hns : ¬ s.time ≤ t := by omega
        simp [valueAtAux, hns]
      rw [hA]
      have hmid : ∀ t, s.time ≤ t → t < s.time + (s2.time - s.time) →
          valueAtAux (s :: s2 :: rest2) t 0 = s.value := by
        intro t h1t h2t
        rw [valueAtAux, if_pos h1t, valueAtAux,
          if_neg (by omega : ¬ s2.time ≤ t)]
      by_cases hv : s.value = 0
      · rw [if_neg (by simpa using hv)]
        rw [filter_range'_false _ _ (fun t h1t h2t => by
          simp [hmid t h1t h2t, hv])]
        rfl
      · rw [if_pos (by simpa using hv)]
        rw [filter_range'_true _ _ (fun t h1t h2t => by
          simp [hmid t h1t h2t, hv])]
        rfl

/-- C1: for every trace with strictly increasing sample times and every
horizon at or beyond the last sample time, trig_times returns exactly the
ordered sequence of distinct ticks below the horizon at which the trace's
value is non-zero. -/
theorem trig_times_spec (tr : Trace) (horizon : Nat) (h1 : tr.Sorted)
    (h2 : ∀ s ∈ tr.samples, s.time ≤ horizon) :
    tr.trig_times horizon =
      (List.range horizon).filter (fun t => decide (tr.value_at t ≠ 0)) := by
  rw [List.range_eq_range']
  have h := trigAux_eq_filter tr.samples 0 horizon h1 h2
    (fun s _ => Nat.zero_le _) (Nat.zero_le _)
  simpa using h

theorem trig_times_spec_witness :
    exTrig.trig_times 14 =
      (List.range 14).filter (fun t => decide (exTrig.value_at t ≠ 0)) ∧
    exTrig.trig_times 14 = [5, 6, 7, 12, 13] :=
  ⟨trig_times_spec exTrig 14 (by decide) (by decide), by decide⟩

/-- Fuel-bounded binary AND on naturals; the first operand also serves as
fuel, which suffices because the result has no more bits than it. -/
def natAndFuel : Nat → Nat → Nat → Nat
  | 0, _, _ => 0
  | fuel + 1, m, n => (m % 2) * (n % 2) + 2 * natAndFuel fuel (m / 2) (n / 2)

/-- Binary AND on naturals. -/
def natAnd (m n : Nat) : Nat := natAndFuel m m n

/-- Fuel-bounded AND-NOT on naturals: the bits of the second operand are
removed from the first. -/
def natAndNotFuel : Nat → Nat → Nat → Nat
  | 0, _, _ => 0
  | fuel + 1, m, n => (m % 2) * (1 - n % 2) + 2 * natAndNotFuel fuel (m / 2) (n / 2)

/-- Binary AND-NOT on naturals. -/
def natAndNot (m n : Nat) : Nat := natAndNotFuel m m n

/-- Binary OR on naturals, via the sum identity m + n = (m OR n) + (m AND n). -/
def natOr (m n : Nat) : Nat := m + n - natAnd m n

/-- Binary XOR on naturals, via m + n = (m XOR n) + 2 (m AND n). -/
def natXor (m n : Nat) : Nat := m + n - 2 * natAnd m n

/-- Modelled from the spec: the bitwise complement of the source language on
unbounded integers in two's complement, so NOT x = -x - 1. -/
def intNot (a : Int) : Int := -a - 1

/-- Modelled from the spec: two's-complement bitwise AND on integers, as in
the source language's unbounded integers. -/
def intLand : Int → Int → Int
  | .ofNat m, .ofNat n => .ofNat (natAnd m n)
  | .ofNat m, .negSucc n => .ofNat (natAndNot m n)
  | .negSucc m, .ofNat n => .ofNat (natAndNot n m)
  | .negSucc m, .negSucc n => .negSucc (natOr m n)

/-- Modelled from the spec: two's-complement bitwise OR on integers. -/
def intLor : Int → Int → Int
  | .ofNat m, .ofNat n => .ofNat (natOr m n)
  | .ofNat m, .negSucc n => .negSucc (natAndNot n m)
  | .negSucc m, .ofNat n => .negSucc (natAndNot m n)
  | .negSucc m, .negSucc n => .negSucc (natAnd m n)

/-- Modelled from the spec: two's-complement bitwise XOR on integers. -/
def intXor : Int → Int → Int
  | .ofNat m, .ofNat n => .ofNat (natXor m n)
  | .ofNat m, .negSucc n => .negSucc (natXor m n)
  | .negSucc m, .ofNat n => .negSucc (natXor m n)
  | .negSucc m, .negSucc n => .ofNat (natXor m n)

/-- The binary operators of the Trace algebra (spec section 4.1). -/
inductive BinOp where
  | add | sub | mul | mod | div | floordiv | pow | shl | shr
  | land | lor | lxor
  | eq | ne | lt | gt | le | ge
deriving DecidableEq, Repr

/-- Modelled from the spec: the per-value semantics of each binary operator;
division and modulo by zero fail with DivisionByZero, integer operators are
integer-valued, comparisons yield 0 or 1 (spec section 4.1). -/
def BinOp.apply : BinOp → Int → Int → Except TraceError Int
  | .add, x, y => .ok (x + y)
  | .sub, x, y => .ok (x - y)
  | .mul, x, y => .ok (x * y)
  | .mod, x, y => if y = 0 then .error .divisionByZero else .ok (Int.fmod x y)
  | .div, x, y => if y = 0 then .error .divisionByZero else .ok (Int.fdiv x y)
  | .floordiv, x, y =>
    if y = 0 then .error .divisionByZero else .ok (Int.fdiv x y)
  | .pow, x, y => .ok (x ^ y.toNat)
  | .shl, x, y => .ok (x * (2 : Int) ^ y.toNat)
  | .shr, x, y => .ok (Int.fdiv x ((2 : Int) ^ y.toNat))
  | .land, x, y => .ok (intLand x y)
  | .lor, x, y => .ok (intLor x y)
  | .lxor, x, y => .ok (intXor x y)
  | .eq, x, y => .ok (if x = y then 1 else 0)
  | .ne, x, y => .ok (if x = y then 0 else 1)
  | .lt, x, y => .ok (if x < y then 1 else 0)
  | .gt, x, y => .ok (if y < x then 1 else 0)
  | .le, x, y => .ok (if x ≤ y then 1 else 0)
  | .ge, x, y => .ok (if y ≤ x then 1 else 0)

/-- The comparison subset of the operators. -/
def BinOp.isCmp : BinOp → Bool
  | .eq | .ne | .lt | .gt | .le | .ge => true
  | _ => false

/-- The division-like subset of the operators (fail on zero divisor). -/
def BinOp.isDivLike : BinOp → Bool
  | .mod | .div | .floordiv => true
  | _ => false

/-- Insertion of a time into a strictly sorted time list, dropping
duplicates. -/
def insertTime (t : Nat) : List Nat → List Nat
  | [] => [t]
  | x :: xs =>
    if t < x then t :: x :: xs
    else if t = x then x :: xs
    else x :: insertTime t xs

/-- Merge of two time lists into one sorted duplicate-free list. -/
def mergeTimes (xs ys : List Nat) : List Nat := xs.foldr insertTime ys

/-- The time of the first sample, or 0 for an empty trace. -/
def firstTime (tr : Trace) : Nat := (tr.samples.head?.map Sample.time).getD 0

/-- The later of the two operands' first sample times (spec section 4.1). -/
def maxFirst (a b : Trace) : Nat := max (firstTime a) (firstTime b)

/-- Modelled from the spec: the candidate timeline of a binary operator
application, namely the union of both operands' changed-sample times
restricted to timestamps at or after the later first-sample time
(spec section 4.1). -/
def candidates (a b : Trace) : List Nat :=
  (mergeTimes a.times b.times).filter (fun t => decide (maxFirst a b ≤ t))

/-- Core evaluation loop shared by the operator entry points: at each
candidate time evaluate the combining function and append the result to the
accumulating trace with the ordinary checking append. -/
def evalTimes (g : Nat → Except TraceError Int) :
    List Nat → Trace → Except TraceError Trace
  | [], acc => .ok acc
  | t :: rest, acc =>
    match g t with
    | .error e => .error e
    | .ok v =>
      match acc.append ⟨t, v⟩ with
      | .error e => .error e
      | .ok acc2 => evalTimes g rest acc2

/-- Modelled from the spec: binary operator evaluation in state-passing
style; the state carries the accumulating result trace and both operand
traces, and every step reads the operands via value_at and appends only to
the result (spec sections 4.1 and 3, immutability of operands). -/
def evalOp2 (op : BinOp) :
    List Nat → Trace × Trace × Trace → Except TraceError (Trace × Trace × Trace)
  | [], st => .ok st
  | t :: rest, (acc, a, b) =>
    match op.apply (a.value_at t) (b.value_at t) with
    | .error e => .error e
    | .ok v =>
      match acc.append ⟨t, v⟩ with
      | .error e => .error e
      | .ok acc2 => evalOp2 op rest (acc2, a, b)

/-- Modelled from the spec: one-operand evaluation in state-passing style,
used for trace-with-scalar and unary operator application. -/
def evalOp1 (f : Int → Except TraceError Int) :
    List Nat → Trace × Trace → Except TraceError (Trace × Trace)
  | [], st => .ok st
  | t :: rest, (acc, a) =>
    match f (a.value_at t) with
    | .error e => .error e
    | .ok v =>
      match acc.append ⟨t, v⟩ with
      | .error e => .error e
      | .ok acc2 => evalOp1 f rest (acc2, a)

/-- Modelled from the spec: a binary operator applied to two Traces walks
the candidate timeline, combining the operand values at each candidate time
and RLE-appending into a fresh Trace (spec section 4.1). -/
def Trace.applyOp (op : BinOp) (a b : Trace) : Except TraceError Trace :=
  match evalOp2 op (candidates a b) (⟨[]⟩, a, b) with
  | .error e => .error e
  | .ok (r, _, _) => .ok r

/-- Modelled from the spec: a binary operator applied to a Trace and a
numeric scalar walks the trace's own sample times, combining each held value
with the scalar (spec section 4.1). -/
def Trace.applyOpScalar (op : BinOp) (tr : Trace) (c : Int) :
    Except TraceError Trace :=
  match evalOp1 (fun v => op.apply v c) tr.times (⟨[]⟩, tr) with
  | .error e => .error e
  | .ok (r, _) => .ok r

/-- Modelled from the spec: a unary operator applied to a Trace maps the
held value at each of its sample times, RLE-appending into a fresh Trace. -/
def Trace.applyOp1 (f : Int → Int) (tr : Trace) : Except TraceError Trace :=
  match evalOp1 (fun v => .ok (f v)) tr.times (⟨[]⟩, tr) with
  | .error e => .error e
  | .ok (r, _) => .ok r

/-- Modelled from the spec: the notebook presents posedge() as the
convenience form of the rising-edge trigger expression T AND NOT T.delay(1),
which is the only definition the repository gives it. -/
def Trace.posedge (tr : Trace) : Except TraceError Trace :=
  match Trace.applyOp1 intNot (tr.delay 1) with
  | .error e => .error e
  | .ok nd => tr.applyOp .land nd

/-- Modelled from the spec: negedge() as the falling-edge trigger expression
NOT T AND T.delay(1), by analogy with the notebook's rising-edge form. -/
def Trace.negedge (tr : Trace) : Except TraceError Trace :=
  match Trace.applyOp1 intNot tr with
  | .error e => .error e
  | .ok nt => nt.applyOp .land (tr.delay 1)

/-- Modelled from the spec: anyedge() as the any-change trigger expression
T "not equal" T.delay(1). -/
def Trace.anyedge (tr : Trace) : Except TraceError Trace :=
  tr.applyOp .ne (tr.delay 1)

lemma mem_insertTime (t : Nat) (l : List Nat) :
    ∀ u, u ∈ insertTime t l ↔ u = t ∨ u ∈ l := by
  induction l with
  | nil => intro u; simp [insertTime]
  | cons x xs ih =>
    intro u
    by_cases h1 : t < x
    · rw [insertTime, if_pos h1]; simp
    · by_cases h2 : t = x
      · rw [insertTime, if_neg h1, if_pos h2]
        subst h2
        simp only [List.mem_cons]
        tauto
      · rw [insertTime, if_neg h1, if_neg h2]
        simp only [List.mem_cons, ih u]
        tauto

lemma insertTime_pairwise (t : Nat) (l : List Nat)
    (h : l.Pairwise (· < ·)) : (insertTime t l).Pairwise (· < ·) := by
  induction l with
  | nil => simp [insertTime]
  | cons x xs ih =>
    rcases List.pairwise_cons.mp h with ⟨hx, hxs⟩
    by_cases h1 : t < x
    · rw [insertTime, if_pos h1]
      refine List.pairwise_cons.mpr ⟨?_, h⟩
      intro u hu
      rcases List.mem_cons.mp hu with rfl | hu
      · exact h1
      · exact h1.trans (hx u hu)
    · by_cases h2 : t = x
      · rw [insertTime, if_neg h1, if_pos h2]; exact h
      · rw [insertTime, if_neg h1, if_neg h2]
        refine List.pairwise_cons.mpr ⟨?_, ih hxs⟩
        intro u hu
        rcases (mem_insertTime t xs u).mp hu with rfl | hu
        · omega
        · exact hx u hu

lemma mem_mergeTimes (xs ys : List Nat) (u : Nat) :
    u ∈ mergeTimes xs ys ↔ u ∈ xs ∨ u ∈ ys := by
  induction xs with
  | nil => simp [mergeTimes]
  | cons x xs ih =>
    show u ∈ insertTime x (mergeTimes xs ys) ↔ _
    rw [mem_insertTime, ih]
    simp only [List.mem_cons]
    tauto

lemma mergeTimes_pairwise (xs ys : List Nat) (h : ys.Pairwise (· < ·)) :
    (mergeTimes xs ys).Pairwise (· < ·) := by
  induction xs with
  | nil => exact h
  | cons x xs ih => exact insertTime_pairwise x (mergeTimes xs ys) ih

lemma times_pairwise (tr : Trace) (h : tr.Sorted) :
    tr.times.Pairwise (· < ·) :=
  List.Pairwise.map Sample.time (fun _ _ hab => hab) h

lemma candidates_pairwise (a b : Trace) (hb : b.Sorted) :
    (candidates a b).Pairwise (· < ·) :=
  List.Pairwise.filter _ (mergeTimes_pairwise a.times b.times (times_pairwise b hb))

lemma mem_candidates (a b : Trace) (u : Nat) :
    u ∈ candidates a b ↔ (u ∈ a.times ∨ u ∈ b.times) ∧ maxFirst a b ≤ u := by
  rw [candidates, List.mem_filter, mem_mergeTimes]
  simp

lemma firstTime_mem_times (tr : Trace) (h : tr.samples ≠ []) :
    firstTime tr ∈ tr.times := by
  obtain ⟨l⟩ := tr
  cases l with
  | nil => exact absurd rfl h
  | cons s rest => simp [firstTime, Trace.times]

lemma maxFirst_mem_candidates (a b : Trace) (ha : a.samples ≠ [])
    (hb : b.samples ≠ []) : maxFirst a b ∈ candidates a b := by
  rw [mem_candidates]
  rcases max_choice (firstTime a) (firstTime b) with h | h
  · exact ⟨Or.inl (by rw [maxFirst, h]; exact firstTime_mem_times a ha), le_refl _⟩
  · exact ⟨Or.inr (by rw [maxFirst, h]; exact firstTime_mem_times b hb), le_refl _⟩

lemma evalTimes_ok (g : Nat → Except TraceError Int) :
    ∀ (ts : List Nat), ts.Pairwise (· < ·) →
    ∀ (acc : List Sample) (res : Trace),
      acc.Pairwise (fun a b => a.time < b.time) →
      acc.Chain' (fun a b => a.value ≠ b.value) →
      (∀ s ∈ acc, ∀ u ∈ ts, s.time < u) →
      evalTimes g ts ⟨acc⟩ = .ok res →
      res.samples.Pairwise (fun a b => a.time < b.time) ∧
      res.samples.Chain' (fun a b => a.value ≠ b.value) ∧
      (∀ s ∈ res.samples, s ∈ acc ∨ (s.time ∈ ts ∧ g s.time = .ok s.value)) ∧
      (∀ t ∈ ts, g t = .ok (res.value_at t)) ∧
      (∀ t, (∀ u ∈ ts, t < u) → res.value_at t = valueAtAux acc t 0) ∧
      (∀ s ∈ acc, s ∈ res.samples) := by
  intro ts
  induction ts with
  | nil =>
    intro _ acc res hs hc _ hok
    simp only [evalTimes] at hok
    injection hok with hok
    subst hok
    exact ⟨hs, hc, fun s hsm => Or.inl hsm, by simp, fun t _ => rfl,
      fun s hsm => hsm⟩
  | cons t rest ih =>
    intro hts acc res hs hc hlt hok
    rcases List.pairwise_cons.mp hts with ⟨htr, hrest⟩
    simp only [evalTimes] at hok
    split at hok
    next e hg => exact Except.noConfusion hok
    next v hg =>
      split at hok
      next e2 happ => exact Except.noConfusion hok
      next acc2 happ =>
        have hle : ∀ y ∈ acc, y.time ≤ t :=
          fun y hy => (hlt y hy t (by simp)).le
        cases hacc : acc.getLast? with
        | none =>
          have haccnil : acc = [] := List.getLast?_eq_none_iff.mp hacc
          subst haccnil
          rw [show Trace.append ⟨[]⟩ ⟨t, v⟩ = .ok ⟨[⟨t, v⟩]⟩ from rfl] at happ
          injection happ with happ
          subst happ
          obtain ⟨h1, h2, h3, h4, h5, h6⟩ := ih hrest [⟨t, v⟩] res
            (by simp) (List.chain'_singleton _)
            (by
              intro s hsm u hu
              rcases List.mem_singleton.mp hsm with rfl
              exact htr u hu)
            hok
          refine ⟨h1, h2, ?_, ?_, ?_, by simp⟩
          · intro s hsm
            rcases h3 s hsm with hmem | ⟨htm, hgv⟩
            · rcases List.mem_singleton.mp hmem with rfl
              exact Or.inr ⟨by simp, hg⟩
            · exact Or.inr ⟨List.mem_cons_of_mem t htm, hgv⟩
          · intro u hu
            rcases List.mem_cons.mp hu with rfl | hu
            · rw [h5 u htr, show valueAtAux [⟨u, v⟩] u 0 = v by
                simp [valueAtAux]]
              exact hg
            · exact h4 u hu
          · intro u hu
            rw [h5 u (fun w hw => hu w (List.mem_cons_of_mem t hw))]
            have hut : u < t := hu t (by simp)
            simp [valueAtAux, Nat.not_le.mpr hut]
        | some lastS =>
          have hmem : lastS ∈ acc := List.mem_of_mem_getLast? hacc
          have hltt : lastS.time < t := hlt lastS hmem t (by simp)
          rw [show Trace.append ⟨acc⟩ ⟨t, v⟩ =
              (if v = lastS.value then .ok ⟨acc⟩
               else .ok ⟨acc ++ [⟨t, v⟩]⟩) by
            simp only [Trace.append, hacc]
            rw [if_neg (by simpa using Nat.not_le.mpr hltt)]] at happ
          by_cases hv : v = lastS.value
          · rw [if_pos hv] at happ
            injection happ with happ
            subst happ
            obtain ⟨h1, h2, h3, h4, h5, h6⟩ := ih hrest acc res hs hc
              (fun s hsm u hu => hlt s hsm u (List.mem_cons_of_mem t hu)) hok
            refine ⟨h1, h2, ?_, ?_, ?_, h6⟩
            · intro s hsm
              rcases h3 s hsm with hmem2 | ⟨htm, hgv⟩
              · exact Or.inl hmem2
              · exact Or.inr ⟨List.mem_cons_of_mem t htm, hgv⟩
            · intro u hu
              rcases List.mem_cons.mp hu with rfl | hu
              · rw [h5 u htr, valueAtAux_all_le acc lastS u hle hacc, ← hv]
                exact hg
              · exact h4 u hu
            · intro u hu
              exact h5 u (fun w hw => hu w (List.mem_cons_of_mem t hw))
          · rw [if_neg hv] at happ
            injection happ with happ
            subst happ
            have hsort2 : (acc ++ [(⟨t, v⟩ : Sample)]).Pairwise
                (fun a b => a.time < b.time) := by
              rw [List.pairwise_append]
              refine ⟨hs, by simp, ?_⟩
              intro x hx y hy
              rcases List.mem_singleton.mp hy with rfl
              exact hlt x hx t (by simp)
            have hchain2 : (acc ++ [(⟨t, v⟩ : Sample)]).Chain'
                (fun a b => a.value ≠ b.value) := by
              rw [List.chain'_append]
              refine ⟨hc, List.chain'_singleton _, ?_⟩
              intro x hx y hy
              have hxl : x = lastS := by
                have h := hacc.symm.trans hx
                exact (Option.some.inj h).symm
              subst hxl
              simp only [List.head?_cons, Option.mem_def,
                Option.some.injEq] at hy
              subst hy
              exact fun hcon => hv hcon.symm
            have hbound2 : ∀ s ∈ acc ++ [(⟨t, v⟩ : Sample)], ∀ u ∈ rest, s.time < u := by
              intro s hsm u hu
              rcases List.mem_append.mp hsm with hsm | hsm
              · exact hlt s hsm u (List.mem_cons_of_mem t hu)
              · rcases List.mem_singleton.mp hsm with rfl
                exact htr u hu
            obtain ⟨h1, h2, h3, h4, h5, h6⟩ := ih hrest (acc ++ [⟨t, v⟩]) res
              hsort2 hchain2 hbound2 hok
            refine ⟨h1, h2, ?_, ?_, ?_, ?_⟩
            · intro s hsm
              rcases h3 s hsm with hmem2 | ⟨htm, hgv⟩
              · rcases List.mem_append.mp hmem2 with hmem2 | hmem2
                · exact Or.inl hmem2
                · rcases List.mem_singleton.mp hmem2 with rfl
                  exact Or.inr ⟨by simp, hg⟩
              · exact Or.inr ⟨List.mem_cons_of_mem t htm, hgv⟩
            · intro u hu
              rcases List.mem_cons.mp hu with rfl | hu
              · rw [h5 u htr, valueAtAux_all_le (acc ++ [⟨u, v⟩]) ⟨u, v⟩ u
                  (by
                    intro y hy
                    rcases List.mem_append.mp hy with hy | hy
                    · exact hle y hy
                    · rcases List.mem_singleton.mp hy with rfl
                      exact le_refl _)
                  (List.getLast?_concat acc)]
                exact hg
              · exact h4 u hu
            · intro u hu
              rw [h5 u (fun w hw => hu w (List.mem_cons_of_mem t hw))]
              exact valueAtAux_append_gt acc ⟨t, v⟩ u (hu t (by simp)) 0
            · intro s hsm
              exact h6 s (List.mem_append_left _ hsm)

lemma evalOp2_eq_evalTimes (op : BinOp) (a b : Trace) :
    ∀ (ts : List Nat) (acc : Trace),
      evalOp2 op ts (acc, a, b) =
        (evalTimes (fun t => op.apply (a.value_at t) (b.value_at t)) ts
          acc).map (fun r => (r, a, b)) := by
  intro ts
  induction ts with
  | nil => intro acc; rfl
  | cons t rest ih =>
    intro acc
    simp only [evalOp2, evalTimes]
    cases op.apply (a.value_at t) (b.value_at t) with
    | error e => rfl
    | ok v =>
      show (match acc.append ⟨t, v⟩ with
        | Except.error e => Except.error e
        | Except.ok acc2 => evalOp2 op rest (acc2, a, b)) =
        Except.map (fun r => (r, a, b))
          (match acc.append ⟨t, v⟩ with
          | Except.error e => Except.error e
          | Except.ok acc2 =>
            evalTimes (fun t => op.apply (a.value_at t) (b.value_at t))
              rest acc2)
      cases acc.append ⟨t, v⟩ with
      | error e => rfl
      | ok acc2 => exact ih acc2

lemma evalOp1_eq_evalTimes (f : Int → Except TraceError Int) (a : Trace) :
    ∀ (ts : List Nat) (acc : Trace),
      evalOp1 f ts (acc, a) =
        (evalTimes (fun t => f (a.value_at t)) ts acc).map
          (fun r => (r, a)) := by
  intro ts
  induction ts with
  | nil => intro acc; rfl
  | cons t rest ih =>
    intro acc
    simp only [evalOp1, evalTimes]
    cases f (a.value_at t) with
    | error e => rfl
    | ok v =>
      show (match acc.append ⟨t, v⟩ with
        | Except.error e => Except.error e
        | Except.ok acc2 => evalOp1 f rest (acc2, a)) =
        Except.map (fun r => (r, a))
          (match acc.append ⟨t, v⟩ with
          | Except.error e => Except.error e
          | Except.ok acc2 =>
            evalTimes (fun t => f (a.value_at t)) rest acc2)
      cases acc.append ⟨t, v⟩ with
      | error e => rfl
      | ok acc2 => exact ih acc2

lemma applyOp_ok (op : BinOp) (a b res : Trace)
    (h : Trace.applyOp op a b = .ok res) :
    evalTimes (fun t => op.apply (a.value_at t) (b.value_at t))
      (candidates a b) ⟨[]⟩ = .ok res := by
  rw [Trace.applyOp, evalOp2_eq_evalTimes] at h
  cases hev : evalTimes (fun t => op.apply (a.value_at t) (b.value_at t))
      (candidates a b) ⟨[]⟩ with
  | error e => rw [hev] at h; exact Except.noConfusion h
  | ok r =>
    rw [hev] at h
    have h2 : (Except.ok r : Except TraceError Trace) = .ok res := h
    injection h2 with h2

lemma applyOpScalar_ok (op : BinOp) (a : Trace) (c : Int) (res : Trace)
    (h : Trace.applyOpScalar op a c = .ok res) :
    evalTimes (fun t => op.apply (a.value_at t) c) a.times ⟨[]⟩ = .ok res := by
  rw [Trace.applyOpScalar, evalOp1_eq_evalTimes] at h
  cases hev : evalTimes (fun t => op.apply (a.value_at t) c) a.times ⟨[]⟩ with
  | error e => rw [hev] at h; exact Except.noConfusion h
  | ok r =>
    rw [hev] at h
    have h2 : (Except.ok r : Except TraceError Trace) = .ok res := h
    injection h2 with h2

lemma applyOp1_ok (f : Int → Int) (a res : Trace)
    (h : Trace.applyOp1 f a = .ok res) :
    evalTimes (fun t => .ok (f (a.value_at t))) a.times ⟨[]⟩ = .ok res := by
  rw [Trace.applyOp1, evalOp1_eq_evalTimes] at h
  cases hev : evalTimes (fun t => Except.ok (f (a.value_at t))) a.times
      ⟨[]⟩ with
  | error e => rw [hev] at h; exact Except.noConfusion h
  | ok r =>
    rw [hev] at h
    have h2 : (Except.ok r : Except TraceError Trace) = .ok res := h
    injection h2 with h2

lemma exists_max_le (S : List Nat) (hS : S.Pairwise (· < ·)) (t : Nat)
    (hex : ∃ u ∈ S, u ≤ t) :
    ∃ m ∈ S, m ≤ t ∧ ∀ u ∈ S, u ≤ t → u ≤ m := by
  induction S with
  | nil => rcases hex with ⟨u, hu, _⟩; exact absurd hu (by simp)
  | cons x S2 ih =>
    rcases List.pairwise_cons.mp hS with ⟨hx, hS2⟩
    by_cases h2 : ∃ u ∈ S2, u ≤ t
    · rcases ih hS2 h2 with ⟨m, hm, hmt, hmax⟩
      refine ⟨m, List.mem_cons_of_mem x hm, hmt, ?_⟩
      intro u hu hut
      rcases List.mem_cons.mp hu with rfl | hu
      · exact (hx m hm).le
      · exact hmax u hu hut
    · rcases hex with ⟨u, hu, hut⟩
      rcases List.mem_cons.mp hu with rfl | hu
      · refine ⟨u, by simp, hut, ?_⟩
        intro w hw hwt
        rcases List.mem_cons.mp hw with rfl | hw
        · exact le_refl _
        · exact absurd ⟨w, hw, hwt⟩ h2
      · exact absurd ⟨u, hu, hut⟩ h2

lemma evalTimes_value_at (g : Nat → Except TraceError Int) (S : List Nat)
    (res : Trace) (hS : S.Pairwise (· < ·))
    (hok : evalTimes g S ⟨[]⟩ = .ok res)
    (t : Nat) (hex : ∃ u ∈ S, u ≤ t)
    (hconst : ∀ m, m ∈ S → m ≤ t → (∀ u ∈ S, ¬(m < u ∧ u ≤ t)) →
      g t = g m) :
    g t = .ok (res.value_at t) := by
  obtain ⟨h1, h2, h3, h4, h5, h6⟩ := evalTimes_ok g S hS [] res
    (by simp) (by simp) (by simp) hok
  obtain ⟨m, hmS, hmt, hmax⟩ := exists_max_le S hS t hex
  have hnu : ∀ u ∈ S, ¬(m < u ∧ u ≤ t) := by
    rintro u hu ⟨h1u, h2u⟩
    exact absurd (hmax u hu h2u) (Nat.not_le.mpr h1u)
  have hns : ∀ s ∈ res.samples, ¬(m < s.time ∧ s.time ≤ t) := by
    intro s hsm
    rcases h3 s hsm with h | ⟨htm, _⟩
    · exact absurd h (by simp)
    · exact hnu s.time htm
  have hval : res.value_at t = res.value_at m :=
    valueAtAux_no_change res.samples m t hmt hns 0
  calc g t = g m := hconst m hmS hmt hnu
    _ = .ok (res.value_at m) := h4 m hmS
    _ = .ok (res.value_at t) := by rw [hval]

lemma applyOp_value_at (op : BinOp) (a b res : Trace) (_ha : a.Sorted)
    (hb : b.Sorted) (hna : a.samples ≠ []) (hnb : b.samples ≠ [])
    (hok : Trace.applyOp op a b = .ok res) (t : Nat)
    (ht : maxFirst a b ≤ t) :
    op.apply (a.value_at t) (b.value_at t) = .ok (res.value_at t) := by
  have hev := applyOp_ok op a b res hok
  have hS := candidates_pairwise a b hb
  apply evalTimes_value_at _ _ _ hS hev t
    ⟨maxFirst a b, maxFirst_mem_candidates a b hna hnb, ht⟩
  intro m hmS hmt hnu
  have hmF : maxFirst a b ≤ m := ((mem_candidates a b m).mp hmS).2
  have hano : ∀ s ∈ a.samples, ¬(m < s.time ∧ s.time ≤ t) := by
    rintro s hsm ⟨hc1, hc2⟩
    apply hnu s.time ?_ ⟨hc1, hc2⟩
    rw [mem_candidates]
    exact ⟨Or.inl (List.mem_map_of_mem Sample.time hsm), by omega⟩
  have hbno : ∀ s ∈ b.samples, ¬(m < s.time ∧ s.time ≤ t) := by
    rintro s hsm ⟨hc1, hc2⟩
    apply hnu s.time ?_ ⟨hc1, hc2⟩
    rw [mem_candidates]
    exact ⟨Or.inr (List.mem_map_of_mem Sample.time hsm), by omega⟩
  have ha2 : a.value_at t = a.value_at m :=
    valueAtAux_no_change a.samples m t hmt hano 0
  have hb2 : b.value_at t = b.value_at m :=
    valueAtAux_no_change b.samples m t hmt hbno 0
  rw [ha2, hb2]

lemma applyOp1_value_at (f : Int → Int) (a res : Trace) (ha : a.Sorted)
    (hok : Trace.applyOp1 f a = .ok res) (t : Nat)

    (hex : ∃ u ∈ a.times, u ≤ t) :
    res.value_at t = f (a.value_at t) := by
  have hev := applyOp1_ok f a res hok
  have hS := times_pairwise a ha
  have h := evalTimes_value_at _ _ _ hS hev t hex ?_
  · injection h with h
    exact h.symm
  · intro m hmS hmt hnu
    have hano : ∀ s ∈ a.samples, ¬(m < s.time ∧ s.time ≤ t) := by
      rintro s hsm ⟨hc1, hc2⟩
      exact hnu s.time (List.mem_map_of_mem Sample.time hsm) ⟨hc1, hc2⟩
    have ha2 : a.value_at t = a.value_at m :=
      valueAtAux_no_change a.samples m t hmt hano 0
    rw [ha2]

/-- Concrete operand traces for operator witnesses. -/
def exA : Trace := ⟨[⟨0, 1⟩, ⟨2, 3⟩]⟩

/-- Second concrete operand trace for operator witnesses. -/
def exB : Trace := ⟨[⟨0, 2⟩, ⟨3, 4⟩]⟩

/-- C2: for every binary operator applied to two Traces with strictly
increasing sample times, a successful result is a Trace whose stored sample
times all lie on the candidate timeline (the union of both operands'
changed-sample times restricted to timestamps at or after the later
first-sample time), whose value at each candidate time t is
left.value_at(t) OP right.value_at(t), and whose sample list obeys the RLE
append rule (strictly increasing times, no duplicate consecutive values). -/
theorem applyOp_spec (op : BinOp) (a b res : Trace) (_ha : a.Sorted)
    (hb : b.Sorted) (hok : Trace.applyOp op a b = .ok res) :
    res.Sorted ∧ res.RLE ∧
    (∀ s ∈ res.samples, s.time ∈ candidates a b ∧
      op.apply (a.value_at s.time) (b.value_at s.time) = .ok s.value) ∧
    (∀ t ∈ candidates a b, op.apply (a.value_at t) (b.value_at t) =
      .ok (res.value_at t)) := by
  have hev := applyOp_ok op a b res hok
  obtain ⟨h1, h2, h3, h4, _h5, _h6⟩ := evalTimes_ok _ (candidates a b)
    (candidates_pairwise a b hb) [] res (by simp) (by simp) (by simp) hev
  refine ⟨h1, h2, ?_, h4⟩
  intro s hsm
  rcases h3 s hsm with h | ⟨htm, hgv⟩
  · exact absurd h (by simp)
  · exact ⟨htm, hgv⟩

theorem applyOp_spec_witness :
    BinOp.apply .add (exA.value_at 2) (exB.value_at 2) =
      .ok ((Trace.mk [⟨0, 3⟩, ⟨2, 5⟩, ⟨3, 7⟩]).value_at 2) :=
  (applyOp_spec .add exA exB ⟨[⟨0, 3⟩, ⟨2, 5⟩, ⟨3, 7⟩]⟩
    (by decide) (by decide) rfl).2.2.2 2 (by decide)

/-- C7 (amended): division or modulo of a Trace with at least one sample by
the scalar zero fails with DivisionByZero regardless of the trace's values
(on an empty trace no evaluation happens and an empty trace is returned),
and for every successful comparison-operator application all stored result
values are 0 or 1. -/
theorem div_by_zero_spec :
    (∀ (op : BinOp) (tr : Trace), op.isDivLike = true → tr.samples ≠ [] →
      Trace.applyOpScalar op tr 0 = .error .divisionByZero) ∧
    (∀ (op : BinOp) (a b res : Trace), op.isCmp = true →
      a.Sorted → b.Sorted → Trace.applyOp op a b = .ok res →
      ∀ s ∈ res.samples, s.value = 0 ∨ s.value = 1) := by
  constructor
  · intro op tr hdiv hne
    obtain ⟨l⟩ := tr
    cases l with
    | nil => exact absurd rfl hne
    | cons s rest =>
      cases op <;> first
        | exact absurd hdiv (by decide)
        | rfl
  · intro op a b res hcmp ha hb hok s hsm
    have hev := applyOp_ok op a b res hok
    obtain ⟨_h1, _h2, h3, _h4, _h5, _h6⟩ := evalTimes_ok _ (candidates a b)
      (candidates_pairwise a b hb) [] res (by simp) (by simp) (by simp) hev
    rcases h3 s hsm with h | ⟨_htm, hgv⟩
    · exact absurd h (by simp)
    · cases op <;> first
        | exact absurd hcmp (by decide)
        | (simp only [BinOp.apply] at hgv
           split at hgv <;> injection hgv with hgv <;>
             first | exact Or.inl hgv.symm | exact Or.inr hgv.symm)

theorem div_by_zero_spec_witness :
    Trace.applyOpScalar BinOp.div exA 0 = .error .divisionByZero ∧
    Trace.applyOpScalar BinOp.mod exA 0 = .error .divisionByZero :=
  ⟨div_by_zero_spec.1 BinOp.div exA rfl (by decide),
   div_by_zero_spec.1 BinOp.mod exA rfl (by decide)⟩

/-- C7 counterexample: dividing the empty Trace by zero does not fail; no
candidate time exists, so no division is evaluated and the result is the
empty Trace, contradicting the claim's "regardless of the operand trace's
values". -/
theorem div_by_zero_empty_counterexample :
    Trace.applyOpScalar BinOp.div ⟨[]⟩ 0 = .ok ⟨[]⟩ ∧
    ¬ Trace.applyOpScalar BinOp.div ⟨[]⟩ 0 = .error .divisionByZero := by
  refine ⟨rfl, fun hc => ?_⟩
  rw [show Trace.applyOpScalar BinOp.div ⟨[]⟩ 0 = Except.ok ⟨[]⟩ from rfl] at hc
  exact Except.noConfusion hc

/-- C9: operator evaluation never mutates its operand traces: the
state-passing evaluators return the operand components of the state
unchanged, for binary application (both operands) and for scalar or unary
application (the single operand); only the freshly built result trace
differs. -/
theorem operators_preserve_operands :
    (∀ (op : BinOp) (ts : List Nat) (acc a b res a2 b2 : Trace),
      evalOp2 op ts (acc, a, b) = .ok (res, a2, b2) → a2 = a ∧ b2 = b) ∧
    (∀ (f : Int → Except TraceError Int) (ts : List Nat) (acc a res a2 : Trace),
      evalOp1 f ts (acc, a) = .ok (res, a2) → a2 = a) := by
  constructor
  · intro op ts acc a b res a2 b2 h
    rw [evalOp2_eq_evalTimes] at h
    cases hev : evalTimes (fun t => op.apply (a.value_at t) (b.value_at t))
        ts acc with
    | error e => rw [hev] at h; exact Except.noConfusion h
    | ok r =>
      rw [hev] at h
      have h2 : (Except.ok (r, a, b) :
          Except TraceError (Trace × Trace × Trace)) = .ok (res, a2, b2) := h
      injection h2 with h2
      exact ⟨(congrArg (fun p => p.2.1) h2).symm,
        (congrArg (fun p => p.2.2) h2).symm⟩
  · intro f ts acc a res a2 h
    rw [evalOp1_eq_evalTimes] at h
    cases hev : evalTimes (fun t => f (a.value_at t)) ts acc with
    | error e => rw [hev] at h; exact Except.noConfusion h
    | ok r =>
      rw [hev] at h
      have h2 : (Except.ok (r, a) :
          Except TraceError (Trace × Trace)) = .ok (res, a2) := h
      injection h2 with h2
      exact (congrArg (fun p => p.2) h2).symm

theorem operators_preserve_operands_witness :
    (evalOp2 .add (candidates exA exB) (⟨[]⟩, exA, exB) =
      .ok (⟨[⟨0, 3⟩, ⟨2, 5⟩, ⟨3, 7⟩]⟩, exA, exB)) ∧
    ((⟨[⟨0, 3⟩, ⟨2, 5⟩, ⟨3, 7⟩]⟩ : Trace) = ⟨[⟨0, 3⟩, ⟨2, 5⟩, ⟨3, 7⟩]⟩ ∧
      exA = exA ∧ exB = exB) :=
  ⟨rfl, rfl,
   (operators_preserve_operands.1 .add (candidates exA exB) ⟨[]⟩ exA exB
      ⟨[⟨0, 3⟩, ⟨2, 5⟩, ⟨3, 7⟩]⟩ exA exB rfl).1,
   (operators_preserve_operands.1 .add (candidates exA exB) ⟨[]⟩ exA exB
      ⟨[⟨0, 3⟩, ⟨2, 5⟩, ⟨3, 7⟩]⟩ exA exB rfl).2⟩

lemma delay_samples_cons (s : Sample) (rest : List Sample) (n : Nat)
    (hn : 0 < s.time + n) :
    (Trace.mk (s :: rest)).delay n =
      ⟨⟨0, (Trace.mk (s :: rest)).value_at 0⟩ ::
        (s :: rest).map (fun x => ⟨x.time + n, x.value⟩)⟩ := by
  show (if 0 < s.time + n
    then (⟨⟨0, (Trace.mk (s :: rest)).value_at 0⟩ ::
      (s :: rest).map (fun x => ⟨x.time + n, x.value⟩)⟩ : Trace)
    else ⟨(s :: rest).map (fun x => ⟨x.time + n, x.value⟩)⟩) = _
  rw [if_pos hn]

lemma delay_samples_cons_neg (s : Sample) (rest : List Sample) (n : Nat)
    (hn : ¬ 0 < s.time + n) :
    (Trace.mk (s :: rest)).delay n =
      ⟨(s :: rest).map (fun x => ⟨x.time + n, x.value⟩)⟩ := by
  show (if 0 < s.time + n
    then (⟨⟨0, (Trace.mk (s :: rest)).value_at 0⟩ ::
      (s :: rest).map (fun x => ⟨x.time + n, x.value⟩)⟩ : Trace)
    else ⟨(s :: rest).map (fun x => ⟨x.time + n, x.value⟩)⟩) = _
  rw [if_neg hn]

lemma delay_sorted (tr : Trace) (h : tr.Sorted) (n : Nat) :
    (tr.delay n).Sorted := by
  obtain ⟨l⟩ := tr
  cases l with
  | nil => exact List.Pairwise.nil
  | cons s rest =>
    have hmap : ((s :: rest).map
        (fun x => (⟨x.time + n, x.value⟩ : Sample))).Pairwise
        (fun a b => a.time < b.time) :=
      List.Pairwise.map _ (fun a b hab => Nat.add_lt_add_right hab n) h
    by_cases hn : 0 < s.time + n
    · rw [show Trace.Sorted ((Trace.mk (s :: rest)).delay n) =
        Trace.Sorted ⟨⟨0, (Trace.mk (s :: rest)).value_at 0⟩ ::
          (s :: rest).map (fun x => ⟨x.time + n, x.value⟩)⟩ from
        congrArg _ (delay_samples_cons s rest n hn)]
      refine List.pairwise_cons.mpr ⟨?_, hmap⟩
      intro y hy
      rcases List.mem_map.mp hy with ⟨x, hx, rfl⟩
      show 0 < x.time + n
      rcases List.mem_cons.mp hx with rfl | hx
      · exact hn
      · have := (List.pairwise_cons.mp h).1 x hx
        omega
    · rw [show Trace.Sorted ((Trace.mk (s :: rest)).delay n) =
        Trace.Sorted ⟨(s :: rest).map (fun x => ⟨x.time + n, x.value⟩)⟩ from
        congrArg _ (delay_samples_cons_neg s rest n hn)]
      exact hmap

lemma value_at_mem01 (tr : Trace)
    (h : ∀ s ∈ tr.samples, s.value = 0 ∨ s.value = 1) (t : Nat) :
    tr.value_at t = 0 ∨ tr.value_at t = 1 := by
  rcases valueAtAux_mem tr.samples t 0 with h0 | ⟨s, hsm, hv⟩
  · exact Or.inl h0
  · show valueAtAux tr.samples t 0 = 0 ∨ valueAtAux tr.samples t 0 = 1
    rw [hv]
    exact h s hsm

lemma evalTimes_first (g : Nat → Except TraceError Int) (t0 : Nat)
    (rest : List Nat) (res : Trace) (hrest : rest.Pairwise (· < ·))
    (hgt : ∀ u ∈ rest, t0 < u)
    (hok : evalTimes g (t0 :: rest) ⟨[]⟩ = .ok res) :
    ∃ v tail, g t0 = .ok v ∧ res.samples = ⟨t0, v⟩ :: tail := by
  simp only [evalTimes] at hok
  split at hok
  next e hg => exact Except.noConfusion hok
  next v hg =>
    split at hok
    next e2 happ => exact Except.noConfusion hok
    next acc2 happ =>
      rw [show Trace.append ⟨[]⟩ ⟨t0, v⟩ = .ok ⟨[⟨t0, v⟩]⟩ from rfl] at happ
      injection happ with happ
      subst happ
      obtain ⟨hp1, _hp2, hp3, _hp4, _hp5, hp6⟩ := evalTimes_ok g rest hrest
        [⟨t0, v⟩] res (by simp) (List.chain'_singleton _)
        (by
          intro s hsm u hu
          rcases List.mem_singleton.mp hsm with rfl
          exact hgt u hu) hok
      have hmem : (⟨t0, v⟩ : Sample) ∈ res.samples := hp6 _ (by simp)
      cases hres : res.samples with
      | nil => rw [hres] at hmem; exact absurd hmem (by simp)
      | cons y tail =>
        rw [hres] at hmem hp1 hp3
        rcases List.mem_cons.mp hmem with he | htail
        · subst he
          exact ⟨v, tail, hg, rfl⟩
        · have hyt : y.time < t0 :=
            (List.pairwise_cons.mp hp1).1 _ htail
          rcases hp3 y (by simp) with hy1 | ⟨hy2, _⟩
          · rcases List.mem_singleton.mp hy1 with rfl
            exact absurd hyt (lt_irrefl t0)
          · have := hgt y.time hy2
            omega

lemma land_not_01 (x w : Int) (hx : x = 0 ∨ x = 1) (hw : w = 0 ∨ w = 1) :
    intLand x (intNot w) = if x = 1 ∧ w = 0 then 1 else 0 := by
  rcases hx with rfl | rfl <;> rcases hw with rfl | rfl <;> decide

lemma posedge_value (tr : Trace) (h1 : tr.Sorted) (h2 : tr.samples ≠ [])
    (h3 : firstTime tr = 0)
    (h4 : ∀ s ∈ tr.samples, s.value = 0 ∨ s.value = 1)
    (res : Trace) (hres : tr.posedge = .ok res) (t : Nat) :
    res.value_at t =
      if tr.value_at t = 1 ∧ 1 ≤ t ∧ tr.value_at (t - 1) = 0
      then 1 else 0 := by
  rw [Trace.posedge] at hres
  split at hres
  next e hnd => exact Except.noConfusion hres
  next nd hnd =>
  obtain ⟨l⟩ := tr
  cases l with
  | nil => exact absurd rfl h2
  | cons s rest =>
    have hs0 : s.time = 0 := by simpa [firstTime] using h3
    have hn1 : 0 < s.time + 1 := by omega
    have hD := delay_samples_cons s rest 1 hn1
    have hDsort : ((Trace.mk (s :: rest)).delay 1).Sorted :=
      delay_sorted ⟨s :: rest⟩ h1 1
    have hDne : ((Trace.mk (s :: rest)).delay 1).samples ≠ [] := by
      rw [hD]; simp
    have hD01 : ∀ y ∈ ((Trace.mk (s :: rest)).delay 1).samples,
        y.value = 0 ∨ y.value = 1 := by
      rw [hD]
      intro y hy
      rcases List.mem_cons.mp hy with rfl | hy
      · exact value_at_mem01 ⟨s :: rest⟩ h4 0
      · rcases List.mem_map.mp hy with ⟨x, hx, rfl⟩
        exact h4 x hx
    have hDtimes : ((Trace.mk (s :: rest)).delay 1).times =
        0 :: ((s :: rest).map
          (fun x => (⟨x.time + 1, x.value⟩ : Sample))).map Sample.time := by
      rw [Trace.times, hD]
      rfl
    have hndS := applyOp1_ok intNot ((Trace.mk (s :: rest)).delay 1) nd hnd
    have hDtpw : ((Trace.mk (s :: rest)).delay 1).times.Pairwise (· < ·) :=
      times_pairwise _ hDsort
    rw [hDtimes] at hndS hDtpw
    rcases List.pairwise_cons.mp hDtpw with ⟨hD0lt, hDtailpw⟩
    obtain ⟨v, tail, _hv0, hndsamp⟩ :=
      evalTimes_first _ 0 _ nd hDtailpw hD0lt hndS
    have hndne : nd.samples ≠ [] := by rw [hndsamp]; simp
    have hfnd : firstTime nd = 0 := by rw [firstTime, hndsamp]; rfl
    have hndsort : nd.Sorted := by
      obtain ⟨hh1, _, _, _, _, _⟩ := evalTimes_ok _ _
        (List.pairwise_cons.mpr ⟨hD0lt, hDtailpw⟩) [] nd
        (by simp) (by simp) (by simp) hndS
      exact hh1
    have hndval : ∀ u : Nat, nd.value_at u =
        intNot (((Trace.mk (s :: rest)).delay 1).value_at u) := by
      intro u
      exact applyOp1_value_at intNot _ nd hDsort hnd u
        ⟨0, by rw [hDtimes]; simp, Nat.zero_le u⟩
    have hmax : maxFirst ⟨s :: rest⟩ nd = 0 := by
      rw [maxFirst, h3, hfnd]
      simp
    have hpt := applyOp_value_at .land ⟨s :: rest⟩ nd res h1 hndsort h2
      hndne hres t (by rw [hmax]; exact Nat.zero_le t)
    have hpt2 : intLand ((Trace.mk (s :: rest)).value_at t)
        (nd.value_at t) = res.value_at t := by
      simp only [BinOp.apply] at hpt
      injection hpt with hpt
    rw [hndval t] at hpt2
    by_cases ht : 1 ≤ t
    · have hDt : ((Trace.mk (s :: rest)).delay 1).value_at t =
          (Trace.mk (s :: rest)).value_at (t - 1) := by
        have h := delay_value_at_shift ⟨s :: rest⟩ 1 (t - 1)
        rwa [show t - 1 + 1 = t by omega] at h
      rw [hDt] at hpt2
      rw [← hpt2]
      rw [land_not_01 _ _ (value_at_mem01 _ h4 t) (value_at_mem01 _ h4 (t - 1))]
      by_cases hc : (Trace.mk (s :: rest)).value_at t = 1 ∧
          (Trace.mk (s :: rest)).value_at (t - 1) = 0
      · rw [if_pos hc, if_pos ⟨hc.1, ht, hc.2⟩]
      · rw [if_neg hc, if_neg (fun hcon => hc ⟨hcon.1, hcon.2.2⟩)]
    · have ht0 : t = 0 := by omega
      subst ht0
      have hDt : ((Trace.mk (s :: rest)).delay 1).value_at 0 =
          (Trace.mk (s :: rest)).value_at 0 :=
        delay_value_at_lt ⟨s :: rest⟩ 1 0 (by omega)
      rw [hDt] at hpt2
      rw [← hpt2]
      rw [if_neg (by rintro ⟨-, hle, -⟩; omega)]
      rcases value_at_mem01 ⟨s :: rest⟩ h4 0 with hx | hx <;> rw [hx] <;> decide

/-- Concrete trace of the spec's posedge scenario. -/
def exEdge : Trace := ⟨[⟨0, 0⟩, ⟨3, 1⟩, ⟨6, 0⟩, ⟨9, 1⟩]⟩

/-- Expected posedge result of the spec's posedge scenario. -/
def exEdgeRes : Trace :=
  ⟨[⟨0, 0⟩, ⟨3, 1⟩, ⟨4, 0⟩, ⟨9, 1⟩, ⟨10, 0⟩]⟩

/-- C10: the convenience methods equal the composed edge-detection
expressions the notebook presents them as shorthand for: posedge() is
T AND NOT T.delay(1), negedge() is NOT T AND T.delay(1), anyedge() is
T "not equal" T.delay(1); moreover, on a 1-bit trace starting at time 0 the
posedge result holds 1 at exactly the ticks where the trace reads 1 and read
0 one tick earlier (a rising-edge detector), and 0 everywhere else. -/
theorem posedge_spec (tr : Trace) (h1 : tr.Sorted) (h2 : tr.samples ≠ [])
    (h3 : firstTime tr = 0)
    (h4 : ∀ s ∈ tr.samples, s.value = 0 ∨ s.value = 1) :
    (∀ nd, Trace.applyOp1 intNot (tr.delay 1) = .ok nd →
      tr.posedge = tr.applyOp .land nd) ∧
    (∀ nt, Trace.applyOp1 intNot tr = .ok nt →
      tr.negedge = nt.applyOp .land (tr.delay 1)) ∧
    tr.anyedge = tr.applyOp .ne (tr.delay 1) ∧
    (∀ res, tr.posedge = .ok res → ∀ t : Nat,
      res.value_at t =
        if tr.value_at t = 1 ∧ 1 ≤ t ∧ tr.value_at (t - 1) = 0
        then 1 else 0) := by
  refine ⟨?_, ?_, rfl, ?_⟩
  · intro nd hnd
    rw [Trace.posedge, hnd]
  · intro nt hnt
    rw [Trace.negedge, hnt]
  · intro res hres t
    exact posedge_value tr h1 h2 h3 h4 res hres t

theorem posedge_spec_witness :
    exEdge.posedge = .ok exEdgeRes ∧
    (exEdgeRes.value_at 3 =
      if exEdge.value_at 3 = 1 ∧ 1 ≤ 3 ∧ exEdge.value_at (3 - 1) = 0
      then 1 else 0) ∧
    exEdgeRes.value_at 3 = 1 ∧ exEdgeRes.value_at 9 = 1 ∧
    exEdgeRes.value_at 4 = 0 ∧ exEdgeRes.value_at 0 = 0 :=
  ⟨rfl,
   (posedge_spec exEdge (by decide) (by decide) (by decide)
     (by decide)).2.2.2 exEdgeRes rfl 3,
   by decide, by decide, by decide, by decide⟩
